import Mathlib

/-!
Verification development for the robot-vacuum grid walker
(src/types.rs, src/execution.rs, src/api.rs).

Modelling decisions, each tied to the source:

* Rust i32 values are modelled as unbounded integers together with an
  explicit two's-complement reduction wrap32 applied exactly where the
  source performs i32 arithmetic that can overflow: the coordinate
  additions in impl Add for Position and the i32::abs call in
  Position::out_of_bounds.  Release builds of the crate compile these
  with wrapping semantics, which is what wrap32 captures.

* The two wall-clock reads (Utc::now() before and after the traversal
  loop in Execution::calculate) are passed in as explicit integer
  timestamps t0 and t1, measured in microseconds, making the timing
  side channel an explicit parameter.  The f64 division producing the
  duration in seconds is modelled over the exact rationals; no claim
  depends on the numeric value of the duration.

* The usize-to-i32 casts on request.commands.len() and cleaned.len()
  truncate at 2^31 in every build profile and are modelled with the
  same wrap32 reduction as the coordinate arithmetic.

* The HashSet<Position> of visited cells is modelled as a Finset over
  positions, which is exactly its value-equality set semantics.

* The relational store behind Execution::save (sqlx) is outside this
  repository; it is modelled from the spec as an insert-returning
  operation on an explicit row list with an autoincrement counter.
-/

namespace RobotVacuum

/-- Two's-complement reduction of an unbounded integer into the i32 range,
the semantics Rust release builds give an overflowing i32 operation. -/
def wrap32 (n : Int) : Int := (n + 2 ^ 31) % 2 ^ 32 - 2 ^ 31

/-- Rust i32::abs under release-build wrapping: the absolute value, except
that abs of the minimal i32 wraps back to the minimal i32 itself. -/
def abs32 (n : Int) : Int := wrap32 |n|

lemma wrap32_eq_self {n : Int} (h1 : -2 ^ 31 ≤ n) (h2 : n < 2 ^ 31) :
    wrap32 n = n := by
  unfold wrap32
  rw [Int.emod_eq_of_lt (by omega) (by omega)]
  omega

/-- The grid limit in any direction (types.rs, FIELD_LIMIT). -/
def FIELD_LIMIT : Int := 100000

/-- A single vertex on the 2D grid (types.rs, struct Position). -/
structure Position where
  x : Int
  y : Int
  deriving DecidableEq

/-- Vector addition of two positions (types.rs, impl Add for Position);
each i32 coordinate addition wraps. -/
def Position.add (p q : Position) : Position :=
  ⟨wrap32 (p.x + q.x), wrap32 (p.y + q.y)⟩

/-- The four directions the robot can move in (types.rs, enum Direction). -/
inductive Direction where
  | North
  | East
  | South
  | West
  deriving DecidableEq

/-- The unit displacement of a direction (types.rs, impl From for Position). -/
def Position.fromDirection : Direction → Position
  | .North => ⟨0, 1⟩
  | .East => ⟨1, 0⟩
  | .West => ⟨-1, 0⟩
  | .South => ⟨0, -1⟩

/-- Whether the field limit has been exceeded on either axis
(types.rs, Position::out_of_bounds). -/
def Position.out_of_bounds (p : Position) : Bool :=
  decide (abs32 p.x > FIELD_LIMIT) || decide (abs32 p.y > FIELD_LIMIT)

/-- One attempted unit step in a direction (types.rs, Position::shift):
the destination is adopted unless it is out of bounds. -/
def Position.shift (p : Position) (d : Direction) : Position :=
  let movement := Position.fromDirection d
  let destination := p.add movement
  if !destination.out_of_bounds then destination else p

/-- A direction together with an i32 step count (types.rs, struct Command). -/
structure Command where
  direction : Direction
  steps : Int
  deriving DecidableEq

/-- A walk request: start position plus ordered commands (api.rs, Request). -/
structure Request where
  start : Position
  commands : List Command
  deriving DecidableEq

/-- The number of microseconds in a second (execution.rs, MICROSECONDS). -/
def MICROSECONDS : Int := 1000000

/-- The run record (execution.rs, struct Execution).  id and timestamp are
filled in by the store; timestamps are abstract integer instants. -/
structure Execution where
  id : Option Int
  timestamp : Option Int
  commands : Int
  result : Int
  duration : Option ℚ
  deriving DecidableEq

/-- The state threaded through the traversal loop of Execution::calculate:
the current position and the set of cleaned vertices. -/
structure WalkState where
  position : Position
  cleaned : Finset Position
  deriving DecidableEq

/-- One iteration of the inner loop of Execution::calculate: shift the
position and insert the (possibly unchanged) new position into the set. -/
def stepOnce (d : Direction) (s : WalkState) : WalkState :=
  let p := s.position.shift d
  ⟨p, insert p s.cleaned⟩

/-- n iterations of the inner loop, left to right. -/
def doSteps (d : Direction) : Nat → WalkState → WalkState
  | 0, s => s
  | n + 1, s => doSteps d n (stepOnce d s)

/-- One iteration of the outer loop of Execution::calculate.  The Rust
inner loop ranges over the inclusive range from 1 to command.steps, which
executes max(steps, 0) iterations; Int.toNat is exactly that count. -/
def runCommand (s : WalkState) (c : Command) : WalkState :=
  doSteps c.direction c.steps.toNat s

/-- Execution::set_duration (execution.rs): the elapsed microseconds turned
into seconds.  chrono's num_microseconds yields none when the count does
not fit an i64. -/
def Execution.set_duration (e : Execution) (t0 t1 : Int) : Execution :=
  let micros := t1 - t0
  let duration :=
    if |micros| ≤ 2 ^ 63 - 1 then some ((micros : ℚ) / (MICROSECONDS : ℚ))
    else none
  { e with duration := duration }

/-- Execution::calculate (execution.rs): store the command count, fold the
traversal loop over the commands, set the duration from the two clock
reads t0 and t1, and store the cardinality of the cleaned set.  Both
counts pass through the usize-to-i32 cast, which truncates at 2^31. -/
def Execution.calculate (t0 t1 : Int) (e : Execution) (request : Request) :
    Execution :=
  let e1 := { e with commands := wrap32 (request.commands.length : Int) }
  let final := request.commands.foldl runCommand ⟨request.start, ∅⟩
  let e2 := e1.set_duration t0 t1
  { e2 with result := wrap32 (final.cleaned.card : Int) }

/-! Spec-side description of the traversal: the list of positions occupied
strictly after each executed unit step, written directly from the spec's
words so that the fold in Execution.calculate can be compared against it. -/

/-- The positions occupied after each of n unit steps in direction d,
starting from p (spec-side description). -/
def traceSteps (p : Position) (d : Direction) : Nat → List Position
  | 0 => []
  | n + 1 => p.shift d :: traceSteps (p.shift d) d n

/-- The position reached after n unit steps in direction d from p. -/
def finalPos (p : Position) (d : Direction) : Nat → Position
  | 0 => p
  | n + 1 => finalPos (p.shift d) d n

/-- The positions occupied after each executed unit step of the whole
command list, in order (spec-side description). -/
def traceWalk (p : Position) : List Command → List Position
  | [] => []
  | c :: cs =>
      traceSteps p c.direction c.steps.toNat ++
      traceWalk (finalPos p c.direction c.steps.toNat) cs

lemma doSteps_position (d : Direction) :
    ∀ (n : Nat) (s : WalkState),
      (doSteps d n s).position = finalPos s.position d n
  | 0, _ => rfl
  | n + 1, s => by
      rw [doSteps, doSteps_position d n]
      rfl

lemma doSteps_cleaned (d : Direction) :
    ∀ (n : Nat) (s : WalkState),
      (doSteps d n s).cleaned =
        s.cleaned ∪ (traceSteps s.position d n).toFinset
  | 0, s => by simp [doSteps, traceSteps]
  | n + 1, s => by
      rw [doSteps, doSteps_cleaned d n]
      show insert (s.position.shift d) s.cleaned ∪
          (traceSteps (s.position.shift d) d n).toFinset = _
      rw [traceSteps, List.toFinset_cons, Finset.insert_union,
        Finset.union_insert]

lemma foldl_runCommand_cleaned :
    ∀ (cs : List Command) (s : WalkState),
      (cs.foldl runCommand s).cleaned =
        s.cleaned ∪ (traceWalk s.position cs).toFinset
  | [], s => by simp [traceWalk]
  | c :: cs, s => by
      rw [List.foldl_cons, foldl_runCommand_cleaned cs]
      show (runCommand s c).cleaned ∪ _ = _
      rw [runCommand, doSteps_cleaned, doSteps_position, traceWalk,
        List.toFinset_append, Finset.union_assoc]

/-- C7: the counting outputs of Execution.calculate do not depend on the
two wall-clock reads: any two runs on the same request agree on the
commands and result fields (only the duration may differ). -/
theorem calculate_deterministic
    (t0 t1 t0' t1' : Int) (e : Execution) (request : Request) :
    (Execution.calculate t0 t1 e request).commands =
      (Execution.calculate t0' t1' e request).commands ∧
    (Execution.calculate t0 t1 e request).result =
      (Execution.calculate t0' t1' e request).result := by
  constructor <;> simp [Execution.calculate, Execution.set_duration]

/-- C9: an empty move sequence yields commands = 0 and result = 0, and a
single move of 0 steps yields result = 0. -/
theorem calculate_empty_and_zero_steps
    (t0 t1 : Int) (e : Execution) (start : Position) :
    (Execution.calculate t0 t1 e ⟨start, []⟩).commands = 0 ∧
    (Execution.calculate t0 t1 e ⟨start, []⟩).result = 0 ∧
    ∀ d : Direction,
      (Execution.calculate t0 t1 e ⟨start, [⟨d, 0⟩]⟩).result = 0 := by
  refine ⟨?_, ?_, fun d => ?_⟩ <;>
    simp [Execution.calculate, Execution.set_duration, runCommand,
      doSteps] <;>
    exact wrap32_eq_self (by norm_num) (by norm_num)

/-! Arithmetic facts about the wrapped i32 operations, and the comparison
of Position.shift with the spec's description of a unit step. -/

lemma abs32_eq_abs {n : Int} (h : |n| < 2 ^ 31) : abs32 n = |n| :=
  wrap32_eq_self (le_trans (by norm_num) (abs_nonneg n)) h

/-- The spec's candidate cell for one unit step: start plus the direction's
unit displacement, in exact (non-wrapping) integer arithmetic. -/
def exactStep (p : Position) (d : Direction) : Position :=
  ⟨p.x + (Position.fromDirection d).x, p.y + (Position.fromDirection d).y⟩

@[simp] lemma exactStep_x (p : Position) (d : Direction) :
    (exactStep p d).x = p.x + (Position.fromDirection d).x := rfl

@[simp] lemma exactStep_y (p : Position) (d : Direction) :
    (exactStep p d).y = p.y + (Position.fromDirection d).y := rfl

/-- Both coordinates within the field limit (the spec's grid bound). -/
def inField (p : Position) : Prop :=
  |p.x| ≤ FIELD_LIMIT ∧ |p.y| ≤ FIELD_LIMIT

instance (p : Position) : Decidable (inField p) := by
  unfold inField
  infer_instance

lemma add_exact (p q : Position) (hx : |p.x + q.x| < 2 ^ 31)
    (hy : |p.y + q.y| < 2 ^ 31) :
    p.add q = ⟨p.x + q.x, p.y + q.y⟩ := by
  rw [abs_lt] at hx hy
  unfold Position.add
  rw [wrap32_eq_self (by omega) (by omega), wrap32_eq_self (by omega)
    (by omega)]

lemma out_of_bounds_iff (p : Position) (hx : |p.x| < 2 ^ 31)
    (hy : |p.y| < 2 ^ 31) :
    p.out_of_bounds = true ↔ ¬ inField p := by
  rw [Position.out_of_bounds, inField, abs32_eq_abs hx, abs32_eq_abs hy]
  simp only [Bool.or_eq_true, decide_eq_true_eq, not_and_or, not_le,
    gt_iff_lt]

lemma shift_of_inField (p : Position) (d : Direction)
    (h : inField (exactStep p d)) : p.shift d = exactStep p d := by
  have hx31 : |(exactStep p d).x| < 2 ^ 31 :=
    lt_of_le_of_lt h.1 (by norm_num [FIELD_LIMIT])
  have hy31 : |(exactStep p d).y| < 2 ^ 31 :=
    lt_of_le_of_lt h.2 (by norm_num [FIELD_LIMIT])
  have hadd : p.add (Position.fromDirection d) = exactStep p d :=
    add_exact p _ hx31 hy31
  have hoob : (exactStep p d).out_of_bounds = false := by
    rw [Bool.eq_false_iff]
    intro hcontra
    exact (out_of_bounds_iff _ hx31 hy31).mp hcontra h
  simp only [Position.shift, hadd, hoob, Bool.not_false, if_true]

lemma shift_of_not_inField (p : Position) (d : Direction)
    (hx : |p.x + (Position.fromDirection d).x| < 2 ^ 31)
    (hy : |p.y + (Position.fromDirection d).y| < 2 ^ 31)
    (h : ¬ inField (exactStep p d)) : p.shift d = p := by
  have hx' : |(exactStep p d).x| < 2 ^ 31 := by rw [exactStep_x]; exact hx
  have hy' : |(exactStep p d).y| < 2 ^ 31 := by rw [exactStep_y]; exact hy
  have hadd : p.add (Position.fromDirection d) = exactStep p d :=
    add_exact p _ hx hy
  have hoob : (exactStep p d).out_of_bounds = true :=
    (out_of_bounds_iff (exactStep p d) hx' hy').mpr h
  simp only [Position.shift, hadd, hoob, Bool.not_true]
  rfl

lemma fromDirection_bound (d : Direction) :
    |(Position.fromDirection d).x| ≤ 1 ∧ |(Position.fromDirection d).y| ≤ 1 := by
  cases d <;> norm_num [Position.fromDirection]

/-- The spec's description of a unit step (an exact-arithmetic candidate,
adopted only when it stays within the field). -/
def specShift (p : Position) (d : Direction) : Position :=
  if inField (exactStep p d) then exactStep p d else p

set_option maxHeartbeats 1600000 in
/-- C2 counterexample: at the i32 maximum the coordinate addition wraps, so
shift adopts a far-away cell where the spec's description keeps the
position unchanged. -/
theorem shift_at_int32_max_defies_spec :
    Position.shift ⟨2147483647, 0⟩ .East = ⟨-2147483648, 0⟩ ∧
    specShift ⟨2147483647, 0⟩ .East = ⟨2147483647, 0⟩ := by
  constructor <;> decide

/-- C2 amended: whenever the candidate cell's coordinates do not overflow
the i32 range, shift behaves exactly as the spec describes: it adopts the
candidate when both its coordinates are at most FIELD_LIMIT in absolute
value and keeps the position unchanged otherwise. -/
theorem shift_matches_spec_without_overflow (p : Position) (d : Direction)
    (hx : |p.x + (Position.fromDirection d).x| < 2 ^ 31)
    (hy : |p.y + (Position.fromDirection d).y| < 2 ^ 31) :
    p.shift d = specShift p d := by
  unfold specShift
  by_cases h : inField (exactStep p d)
  · rw [if_pos h, shift_of_inField p d h]
  · rw [if_neg h, shift_of_not_inField p d hx hy h]

/-- C2 witness: the amended statement applied at position (3, 4) going
East. -/
theorem shift_matches_spec_without_overflow_witness :
    (|(3 : Int) + 1| < 2 ^ 31 ∧ |(4 : Int) + 0| < 2 ^ 31) ∧
    Position.shift ⟨3, 4⟩ .East = specShift ⟨3, 4⟩ .East :=
  ⟨⟨by norm_num, by norm_num⟩,
    shift_matches_spec_without_overflow ⟨3, 4⟩ .East
      (by norm_num [Position.fromDirection])
      (by norm_num [Position.fromDirection])⟩

/-- C3 counterexample: a start outside the field stays outside after a
shift, so shift alone does not force coordinates into the field range. -/
theorem shift_from_out_of_range_start_stays_out :
    Position.shift ⟨200000, 0⟩ .East = ⟨200000, 0⟩ ∧
    ¬ inField (Position.shift ⟨200000, 0⟩ .East) := by
  constructor <;> decide

/-- C3 amended: shift preserves the field bounds: when the input position
has both coordinates within FIELD_LIMIT in absolute value, so does the
output; an out-of-range start, however, can stay out of range. -/
theorem shift_preserves_field_bounds (p : Position) (d : Direction)
    (h : inField p) : inField (p.shift d) := by
  have hb := fromDirection_bound d
  have haddx := abs_add p.x (Position.fromDirection d).x
  have haddy := abs_add p.y (Position.fromDirection d).y
  have hlim : FIELD_LIMIT = (100000 : Int) := rfl
  by_cases hc : inField (exactStep p d)
  · rw [shift_of_inField p d hc]
    exact hc
  · rw [shift_of_not_inField p d ?_ ?_ hc]
    · exact h
    · calc |p.x + (Position.fromDirection d).x|
          ≤ |p.x| + |(Position.fromDirection d).x| := haddx
        _ ≤ FIELD_LIMIT + 1 := add_le_add h.1 hb.1
        _ < 2 ^ 31 := by rw [hlim]; norm_num
    · calc |p.y + (Position.fromDirection d).y|
          ≤ |p.y| + |(Position.fromDirection d).y| := haddy
        _ ≤ FIELD_LIMIT + 1 := add_le_add h.2 hb.2
        _ < 2 ^ 31 := by rw [hlim]; norm_num

/-- C3 witness: the amended statement applied at the boundary cell
(100000, 0) going East. -/
theorem shift_preserves_field_bounds_witness :
    inField ⟨100000, 0⟩ ∧ inField (Position.shift ⟨100000, 0⟩ .East) :=
  ⟨by decide, shift_preserves_field_bounds ⟨100000, 0⟩ .East (by decide)⟩

set_option maxHeartbeats 1600000 in
/-- C6 counterexample: starting at the i32 maximum, the first unit step
East leaves the field but is not clamped: the wrapped coordinate is
adopted, and from the wrapped column the robot then moves freely, so the
walk [East 1, North 2] visits 3 distinct cells where clamping every
out-of-field attempt would revisit the single starting cell. -/
theorem calculate_not_clamped_at_int32_limit :
    Position.shift ⟨2147483647, 5⟩ .East = ⟨-2147483648, 5⟩ ∧
    ¬ inField (exactStep ⟨2147483647, 5⟩ .East) ∧
    (Execution.calculate 0 0 ⟨none, none, 0, 0, none⟩
        ⟨⟨2147483647, 0⟩, [⟨.East, 1⟩, ⟨.North, 2⟩]⟩).result = 3 := by
  refine ⟨?_, ?_, ?_⟩ <;> decide

/-- C6 amended: calculate is a total function of its input (the embedding
of the traversal terminates on every request with no error value), and a
unit step whose exact candidate cell leaves the field is discarded
whenever the current coordinates are below the i32 type limits; at the
type limits themselves the wrapping i32 arithmetic can instead adopt a
wrapped position. -/
theorem shift_clamps_below_int32_limits (p : Position) (d : Direction)
    (hx : |p.x| ≤ 2 ^ 31 - 2) (hy : |p.y| ≤ 2 ^ 31 - 2)
    (h : ¬ inField (exactStep p d)) : p.shift d = p := by
  have hb := fromDirection_bound d
  have haddx := abs_add p.x (Position.fromDirection d).x
  have haddy := abs_add p.y (Position.fromDirection d).y
  refine shift_of_not_inField p d ?_ ?_ h
  · calc |p.x + (Position.fromDirection d).x|
        ≤ |p.x| + |(Position.fromDirection d).x| := haddx
      _ ≤ 2 ^ 31 - 2 + 1 := add_le_add hx hb.1
      _ < 2 ^ 31 := by norm_num
  · calc |p.y + (Position.fromDirection d).y|
        ≤ |p.y| + |(Position.fromDirection d).y| := haddy
      _ ≤ 2 ^ 31 - 2 + 1 := add_le_add hy hb.2
      _ < 2 ^ 31 := by norm_num

/-- C6 witness: the amended statement applied at the boundary cell
(100000, 50) going East, whose candidate (100001, 50) leaves the field. -/
theorem shift_clamps_below_int32_limits_witness :
    (|(100000 : Int)| ≤ 2 ^ 31 - 2 ∧ |(50 : Int)| ≤ 2 ^ 31 - 2 ∧
      ¬ inField (exactStep ⟨100000, 50⟩ .East)) ∧
    Position.shift ⟨100000, 50⟩ .East = ⟨100000, 50⟩ :=
  ⟨⟨by norm_num, by norm_num, by decide⟩,
    shift_clamps_below_int32_limits ⟨100000, 50⟩ .East (by norm_num)
      (by norm_num) (by decide)⟩

/-- C10: a command with a negative step count executes zero unit steps —
the Rust inclusive range from 1 to steps is empty — so the walk behaves
exactly as if that command had 0 steps, while the command still counts
toward the commands field through the length of the list. -/
theorem calculate_negative_steps_like_zero
    (t0 t1 : Int) (e : Execution) (start : Position)
    (pre post : List Command) (d : Direction) (n : Int) (h : n < 0) :
    Execution.calculate t0 t1 e ⟨start, pre ++ ⟨d, n⟩ :: post⟩ =
      Execution.calculate t0 t1 e ⟨start, pre ++ ⟨d, 0⟩ :: post⟩ := by
  have hn : n.toNat = 0 := Int.toNat_of_nonpos (le_of_lt h)
  have hrun : ∀ s : WalkState,
      runCommand s ⟨d, n⟩ = runCommand s ⟨d, 0⟩ := by
    intro s
    simp [runCommand, hn, Int.toNat_zero]
  simp only [Execution.calculate, List.length_append, List.length_cons,
    List.foldl_append, List.foldl_cons, hrun]

/-- C10 witness: a single command of -5 steps East from the origin yields
the same record as the same command with 0 steps. -/
theorem calculate_negative_steps_like_zero_witness :
    (-5 : Int) < 0 ∧
    Execution.calculate 0 0 ⟨none, none, 0, 0, none⟩
        ⟨⟨0, 0⟩, [⟨.East, -5⟩]⟩ =
      Execution.calculate 0 0 ⟨none, none, 0, 0, none⟩
        ⟨⟨0, 0⟩, [⟨.East, 0⟩]⟩ :=
  ⟨by norm_num,
    calculate_negative_steps_like_zero 0 0 ⟨none, none, 0, 0, none⟩
      ⟨0, 0⟩ [] [] .East (-5) (by norm_num)⟩

/-! The persistence layer.  The relational store itself (sqlx and the
executions table) is outside this repository, so it is modelled from the
spec; Execution.save is translated from execution.rs on top of it. -/

/-- The one error kind originating in the core (spec section 7): the
persistence operation cannot complete because the store is unreachable,
rejects the write, or the connection pool is exhausted. -/
inductive StorageError where
  | unreachable
  | writeRejected
  | poolExhausted
  deriving DecidableEq

/-- Modelled from the spec: the relational store reached through the
insert-and-return operation (the storage engine is not part of src/).
rows is the executions table, nextId its autoincrement counter, now the
server clock, failure the store's current failure condition if any, and
ops counts the store operations issued. -/
structure Store where
  rows : List Execution
  nextId : Int
  now : Int
  failure : Option StorageError
  ops : Nat
  deriving DecidableEq

/-- Modelled from the spec: the single atomic insert-row-and-return-it
operation.  It either fails with the store's failure condition, leaving
the table unchanged, or appends exactly one row completed with the
store-assigned id and timestamp and returns that row. -/
def Store.insertReturning (s : Store) (commands result : Int)
    (duration : Option ℚ) : Store × Except StorageError Execution :=
  match s.failure with
  | some err => ({ s with ops := s.ops + 1 }, Except.error err)
  | none =>
      let row : Execution :=
        ⟨some s.nextId, some s.now, commands, result, duration⟩
      ({ s with
          rows := s.rows ++ [row]
          nextId := s.nextId + 1
          ops := s.ops + 1 }, Except.ok row)

/-- Execution::save (execution.rs): bind the three client-chosen fields
commands, result and duration into the single insert-returning query and
propagate its outcome unchanged. -/
def Execution.save (e : Execution) (s : Store) :
    Store × Except StorageError Execution :=
  s.insertReturning e.commands e.result e.duration

/-- C8: save issues exactly one store operation; on success it returns the
full record, with the store-assigned id and timestamp and the client's
commands, result and duration echoed back, appending exactly that row to
the table; on failure it returns the storage error and no row is
persisted — there is no partial-success state. -/
theorem save_single_insert_contract (e : Execution) (s : Store) :
    ((e.save s).1.ops = s.ops + 1) ∧
    (s.failure = none →
      e.save s =
        ({ s with
            rows := s.rows ++
              [⟨some s.nextId, some s.now, e.commands, e.result,
                e.duration⟩],
            nextId := s.nextId + 1, ops := s.ops + 1 },
          Except.ok
            ⟨some s.nextId, some s.now, e.commands, e.result,
              e.duration⟩)) ∧
    (∀ err : StorageError, s.failure = some err →
      (e.save s).1.rows = s.rows ∧ (e.save s).2 = Except.error err) := by
  refine ⟨?_, fun hf => ?_, fun err hf => ?_⟩ <;>
    cases hcase : s.failure <;>
      simp_all [Execution.save, Store.insertReturning]

/-- C8 witness: the contract applied to a record with commands 3,
result 10 against a working store and against an unreachable store. -/
theorem save_single_insert_contract_witness :
    (⟨none, none, 3, 10, none⟩ : Execution).save ⟨[], 1, 42, none, 0⟩ =
      (⟨[⟨some 1, some 42, 3, 10, none⟩], 2, 42, none, 1⟩,
        Except.ok ⟨some 1, some 42, 3, 10, none⟩) ∧
    ((⟨none, none, 3, 10, none⟩ : Execution).save
        ⟨[], 1, 42, some .unreachable, 0⟩).1.rows = [] ∧
    ((⟨none, none, 3, 10, none⟩ : Execution).save
        ⟨[], 1, 42, some .unreachable, 0⟩).2 =
      Except.error .unreachable := by
  refine ⟨?_, ?_, ?_⟩
  · exact (save_single_insert_contract ⟨none, none, 3, 10, none⟩
      ⟨[], 1, 42, none, 0⟩).2.1 rfl
  · exact ((save_single_insert_contract ⟨none, none, 3, 10, none⟩
      ⟨[], 1, 42, some .unreachable, 0⟩).2.2 .unreachable rfl).1
  · exact ((save_single_insert_contract ⟨none, none, 3, 10, none⟩
      ⟨[], 1, 42, some .unreachable, 0⟩).2.2 .unreachable rfl).2

/-! Closed-form description of straight runs of unit steps, used to settle
the boundary-clamping scenario from the spec's test table. -/

/-- The exact position after k unit displacements in direction d. -/
def stepN (p : Position) (d : Direction) (k : Nat) : Position :=
  ⟨p.x + k * (Position.fromDirection d).x,
    p.y + k * (Position.fromDirection d).y⟩

lemma stepN_zero (p : Position) (d : Direction) : stepN p d 0 = p := by
  simp [stepN]

lemma stepN_one (p : Position) (d : Direction) :
    stepN p d 1 = exactStep p d := by
  simp [stepN, exactStep]

lemma stepN_stepN (p : Position) (d : Direction) (i j : Nat) :
    stepN (stepN p d i) d j = stepN p d (i + j) := by
  simp only [stepN, Position.mk.injEq, Nat.cast_add]
  constructor <;> ring

lemma traceSteps_clamped (p : Position) (d : Direction)
    (hp : p.shift d = p) :
    ∀ n : Nat, traceSteps p d n = List.replicate n p ∧ finalPos p d n = p
  | 0 => ⟨rfl, rfl⟩
  | n + 1 => by
      have ih := traceSteps_clamped p d hp n
      constructor
      · rw [traceSteps, hp, ih.1, List.replicate_succ]
      · rw [finalPos, hp, ih.2]

lemma walk_add (d : Direction) (m : Nat) :
    ∀ (n : Nat) (p : Position),
      traceSteps p d (m + n) =
        traceSteps p d m ++ traceSteps (finalPos p d m) d n ∧
      finalPos p d (m + n) = finalPos (finalPos p d m) d n := by
  induction m with
  | zero => intro n p; rw [Nat.zero_add]; exact ⟨rfl, rfl⟩
  | succ m ih =>
      intro n p
      have harith : m + 1 + n = (m + n) + 1 := by omega
      constructor
      · rw [harith, traceSteps, (ih n (p.shift d)).1]
        rfl
      · rw [harith, finalPos, (ih n (p.shift d)).2]
        rfl

lemma traceSteps_free (d : Direction) (n : Nat) (p : Position)
    (h : ∀ k : Nat, k < n → inField (stepN p d (k + 1))) :
    traceSteps p d n = (List.range n).map (fun k => stepN p d (k + 1)) ∧
    finalPos p d n = stepN p d n := by
  induction n with
  | zero => exact ⟨rfl, (stepN_zero p d).symm⟩
  | succ n ih =>
      have ih' := ih (fun k hk => h k (by omega))
      have hin : inField (exactStep (stepN p d n) d) := by
        rw [← stepN_one, stepN_stepN]
        exact h n (by omega)
      have hshift : (stepN p d n).shift d = stepN p d (n + 1) := by
        rw [shift_of_inField _ d hin, ← stepN_one, stepN_stepN]
      constructor
      · rw [show n + 1 = n + 1 from rfl, (walk_add d n 1 p).1, ih'.1,
          ih'.2, List.range_succ, List.map_append]
        show _ = _ ++ [stepN p d (n + 1)]
        rw [← hshift]
        rfl
      · rw [(walk_add d n 1 p).2, ih'.2]
        show (stepN p d n).shift d = _
        rw [hshift]

lemma list_map_toFinset {α β : Type} [DecidableEq α] [DecidableEq β]
    (f : α → β) (l : List α) :
    (l.map f).toFinset = l.toFinset.image f := by
  induction l with
  | nil => simp
  | cons a l ih => simp [ih]

lemma list_range_toFinset (n : Nat) :
    (List.range n).toFinset = Finset.range n := by
  ext k
  simp

set_option maxHeartbeats 1600000 in
lemma scenarioE_trace_card :
    (traceWalk ⟨100000, 222⟩
      [⟨Direction.East, 22⟩, ⟨Direction.West, 70⟩,
        ⟨Direction.North, 120000⟩]).toFinset.card = 99849 := by
  have hc1 : Position.shift ⟨100000, 222⟩ .East = ⟨100000, 222⟩ := by decide
  have s1 := traceSteps_clamped ⟨100000, 222⟩ .East hc1 22
  have h2 : ∀ k : Nat, k < 70 →
      inField (stepN ⟨100000, 222⟩ .West (k + 1)) := by
    intro k hk
    simp only [stepN, inField, Position.fromDirection, FIELD_LIMIT, abs_le]
    push_cast
    omega
  have s2 := traceSteps_free .West 70 ⟨100000, 222⟩ h2
  have hq2 : stepN ⟨100000, 222⟩ .West 70 = ⟨99930, 222⟩ := by decide
  have h3 : ∀ k : Nat, k < 99778 →
      inField (stepN ⟨99930, 222⟩ .North (k + 1)) := by
    intro k hk
    simp only [stepN, inField, Position.fromDirection, FIELD_LIMIT, abs_le]
    push_cast
    omega
  have s3 := traceSteps_free .North 99778 ⟨99930, 222⟩ h3
  have hq3 : stepN ⟨99930, 222⟩ .North 99778 = ⟨99930, 100000⟩ := by decide
  have hc3 : Position.shift ⟨99930, 100000⟩ .North = ⟨99930, 100000⟩ := by
    decide
  have s4 := traceSteps_clamped ⟨99930, 100000⟩ .North hc3 20222
  have hsplit := walk_add .North 99778 20222 ⟨99930, 222⟩
  have hwalk : traceWalk ⟨100000, 222⟩
      [⟨Direction.East, 22⟩, ⟨Direction.West, 70⟩,
        ⟨Direction.North, 120000⟩] =
      traceSteps ⟨100000, 222⟩ .East 22 ++
        (traceSteps (finalPos ⟨100000, 222⟩ .East 22) .West 70 ++
          (traceSteps
              (finalPos (finalPos ⟨100000, 222⟩ .East 22) .West 70)
              .North 120000 ++ [])) := rfl
  rw [hwalk, s1.1, s1.2, s2.1, s2.2, hq2,
    show (120000 : Nat) = 99778 + 20222 from by norm_num, hsplit.1,
    s3.1, s3.2, hq3, s4.1, List.append_nil]
  rw [List.toFinset_append, List.toFinset_append, List.toFinset_append,
    List.toFinset_replicate_of_ne_zero (by norm_num),
    List.toFinset_replicate_of_ne_zero (by norm_num),
    list_map_toFinset, list_map_toFinset, list_range_toFinset,
    list_range_toFinset]
  have hDC : ({(⟨99930, 100000⟩ : Position)} : Finset Position) ⊆
      (Finset.range 99778).image
        (fun k => stepN ⟨99930, 222⟩ .North (k + 1)) := by
    rw [Finset.singleton_subset_iff, Finset.mem_image]
    exact ⟨99777, by norm_num [Finset.mem_range], by decide⟩
  rw [Finset.union_eq_left.mpr hDC]
  have hinj2 : Function.Injective
      (fun k : Nat => stepN ⟨100000, 222⟩ .West (k + 1)) := by
    intro a b hab
    simp only [stepN, Position.fromDirection, Position.mk.injEq] at hab
    push_cast at hab
    omega
  have hinj3 : Function.Injective
      (fun k : Nat => stepN ⟨99930, 222⟩ .North (k + 1)) := by
    intro a b hab
    simp only [stepN, Position.fromDirection, Position.mk.injEq] at hab
    push_cast at hab
    omega
  have hBC : Disjoint
      ((Finset.range 70).image
        (fun k => stepN ⟨100000, 222⟩ .West (k + 1)))
      ((Finset.range 99778).image
        (fun k => stepN ⟨99930, 222⟩ .North (k + 1))) := by
    rw [Finset.disjoint_left]
    intro a ha hb
    rw [Finset.mem_image] at ha hb
    obtain ⟨j, _, hj⟩ := ha
    obtain ⟨k, _, hk⟩ := hb
    rw [← hk] at hj
    simp only [stepN, Position.fromDirection, Position.mk.injEq] at hj
    push_cast at hj
    omega
  have hABC : Disjoint ({(⟨100000, 222⟩ : Position)} : Finset Position)
      ((Finset.range 70).image
          (fun k => stepN ⟨100000, 222⟩ .West (k + 1)) ∪
        (Finset.range 99778).image
          (fun k => stepN ⟨99930, 222⟩ .North (k + 1))) := by
    rw [Finset.disjoint_left]
    intro a ha hb
    rw [Finset.mem_singleton] at ha
    subst ha
    rw [Finset.mem_union, Finset.mem_image, Finset.mem_image] at hb
    rcases hb with ⟨k, _, hk⟩ | ⟨k, _, hk⟩ <;>
      · simp only [stepN, Position.fromDirection, Position.mk.injEq] at hk
        push_cast at hk
        omega
  rw [Finset.card_union_of_disjoint hABC,
    Finset.card_union_of_disjoint hBC, Finset.card_singleton,
    Finset.card_image_of_injective _ hinj2,
    Finset.card_image_of_injective _ hinj3, Finset.card_range,
    Finset.card_range]

/-- C4: scenario E from the spec: starting at (100000, 222) and moving
East 22, West 70, North 120000 yields commands = 3 and result = 99849,
exercising clamping on both axes. -/
theorem calculate_scenario_e (t0 t1 : Int) (e : Execution) :
    (Execution.calculate t0 t1 e
        ⟨⟨100000, 222⟩,
          [⟨Direction.East, 22⟩, ⟨Direction.West, 70⟩,
            ⟨Direction.North, 120000⟩]⟩).commands = 3 ∧
    (Execution.calculate t0 t1 e
        ⟨⟨100000, 222⟩,
          [⟨Direction.East, 22⟩, ⟨Direction.West, 70⟩,
            ⟨Direction.North, 120000⟩]⟩).result = 99849 := by
  constructor
  · simp [Execution.calculate, Execution.set_duration]
    exact wrap32_eq_self (by norm_num) (by norm_num)
  · have h := foldl_runCommand_cleaned
      [⟨Direction.East, 22⟩, ⟨Direction.West, 70⟩,
        ⟨Direction.North, 120000⟩] ⟨⟨100000, 222⟩, ∅⟩
    simp only [Finset.empty_union] at h
    simp only [Execution.calculate, Execution.set_duration, h]
    rw [scenarioE_trace_card]
    push_cast
    exact wrap32_eq_self (by norm_num) (by norm_num)

/-! A boustrophedon (snake) walk that visits at least 2^31 distinct
in-field cells, reaching the truncation point of the usize-to-i32 casts
on the counts stored by Execution.calculate. -/

/-- The position reached after executing a whole command list. -/
def walkEnd (p : Position) : List Command → Position
  | [] => p
  | c :: cs => walkEnd (finalPos p c.direction c.steps.toNat) cs

lemma traceWalk_append :
    ∀ (l1 l2 : List Command) (p : Position),
      traceWalk p (l1 ++ l2) =
        traceWalk p l1 ++ traceWalk (walkEnd p l1) l2
  | [], _, _ => rfl
  | c :: l1, l2, p => by
      rw [List.cons_append, traceWalk, traceWalk,
        traceWalk_append l1 l2, List.append_assoc]
      rfl

/-- One snake unit: climb the current column, step East, descend the next
column, step East onto the bottom corner of the column after it. -/
def snakeUnit : List Command :=
  [⟨Direction.North, 200000⟩, ⟨Direction.East, 1⟩,
    ⟨Direction.South, 200000⟩, ⟨Direction.East, 1⟩]

lemma snakeUnit_spec (x : Int) (h1 : -100000 ≤ x) (h2 : x + 2 ≤ 100000) :
    walkEnd ⟨x, -100000⟩ snakeUnit = ⟨x + 2, -100000⟩ ∧
    (traceWalk ⟨x, -100000⟩ snakeUnit).toFinset.card = 400002 ∧
    ∀ p ∈ (traceWalk ⟨x, -100000⟩ snakeUnit).toFinset,
      (p.x = x ∧ -99999 ≤ p.y) ∨ p.x = x + 1 ∨
        p = (⟨x + 2, -100000⟩ : Position) := by
  have hN : ∀ k : Nat, k < 200000 →
      inField (stepN ⟨x, -100000⟩ .North (k + 1)) := by
    intro k hk
    simp only [stepN, inField, Position.fromDirection, FIELD_LIMIT, abs_le]
    push_cast
    omega
  have sN := traceSteps_free .North 200000 ⟨x, -100000⟩ hN
  have hqN : stepN ⟨x, -100000⟩ .North 200000 = ⟨x, 100000⟩ := by
    simp only [stepN, Position.fromDirection, Position.mk.injEq]
    norm_num
  have hE1 : (⟨x, 100000⟩ : Position).shift .East = ⟨x + 1, 100000⟩ := by
    have hin : inField (exactStep ⟨x, 100000⟩ .East) := by
      simp only [inField, exactStep, Position.fromDirection, FIELD_LIMIT,
        abs_le]
      omega
    rw [shift_of_inField _ _ hin]
    simp [exactStep, Position.fromDirection]
  have hS : ∀ k : Nat, k < 200000 →
      inField (stepN ⟨x + 1, 100000⟩ .South (k + 1)) := by
    intro k hk
    simp only [stepN, inField, Position.fromDirection, FIELD_LIMIT, abs_le]
    push_cast
    omega
  have sS := traceSteps_free .South 200000 ⟨x + 1, 100000⟩ hS
  have hqS : stepN ⟨x + 1, 100000⟩ .South 200000 = ⟨x + 1, -100000⟩ := by
    simp only [stepN, Position.fromDirection, Position.mk.injEq]
    norm_num
  have hE2 : (⟨x + 1, -100000⟩ : Position).shift .East =
      ⟨x + 2, -100000⟩ := by
    have hin : inField (exactStep ⟨x + 1, -100000⟩ .East) := by
      simp only [inField, exactStep, Position.fromDirection, FIELD_LIMIT,
        abs_le]
      omega
    rw [shift_of_inField _ _ hin]
    simp only [exactStep, Position.fromDirection, Position.mk.injEq]
    omega
  have hTE1 : traceSteps ⟨x, 100000⟩ .East 1 = [⟨x + 1, 100000⟩] := by
    rw [← hE1]
    rfl
  have hFE1 : finalPos ⟨x, 100000⟩ .East 1 = ⟨x + 1, 100000⟩ := by
    rw [← hE1]
    rfl
  have hTE2 : traceSteps ⟨x + 1, -100000⟩ .East 1 =
      [⟨x + 2, -100000⟩] := by
    rw [← hE2]
    rfl
  have hFE2 : finalPos ⟨x + 1, -100000⟩ .East 1 = ⟨x + 2, -100000⟩ := by
    rw [← hE2]
    rfl
  have hwalk : traceWalk ⟨x, -100000⟩ snakeUnit =
      traceSteps ⟨x, -100000⟩ .North 200000 ++
        (traceSteps (finalPos ⟨x, -100000⟩ .North 200000) .East 1 ++
          (traceSteps
              (finalPos (finalPos ⟨x, -100000⟩ .North 200000) .East 1)
              .South 200000 ++
            (traceSteps
                (finalPos
                  (finalPos (finalPos ⟨x, -100000⟩ .North 200000) .East 1)
                  .South 200000)
                .East 1 ++ []))) := rfl
  have hend : walkEnd ⟨x, -100000⟩ snakeUnit =
      finalPos
        (finalPos
          (finalPos (finalPos ⟨x, -100000⟩ .North 200000) .East 1)
          .South 200000)
        .East 1 := rfl
  have htrace : traceWalk ⟨x, -100000⟩ snakeUnit =
      (List.range 200000).map
          (fun k => stepN ⟨x, -100000⟩ .North (k + 1)) ++
        ((⟨x + 1, 100000⟩ : Position) ::
          ((List.range 200000).map
              (fun k => stepN ⟨x + 1, 100000⟩ .South (k + 1)) ++
            [(⟨x + 2, -100000⟩ : Position)])) := by
    rw [hwalk, sN.1, sN.2, hqN, hTE1, hFE1, sS.1, sS.2, hqS, hTE2,
      List.append_nil, List.singleton_append]
  refine ⟨?_, ?_, ?_⟩
  · rw [hend, sN.2, hqN, hFE1, sS.2, hqS, hFE2]
  · rw [htrace]
    simp only [List.toFinset_append, List.toFinset_cons,
      List.toFinset_nil, list_map_toFinset, list_range_toFinset,
      Finset.union_insert, Finset.union_empty]
    have hinjN : Function.Injective
        (fun k : Nat => stepN ⟨x, -100000⟩ .North (k + 1)) := by
      intro a b hab
      simp only [stepN, Position.fromDirection, Position.mk.injEq] at hab
      push_cast at hab
      omega
    have hinjS : Function.Injective
        (fun k : Nat => stepN ⟨x + 1, 100000⟩ .South (k + 1)) := by
      intro a b hab
      simp only [stepN, Position.fromDirection, Position.mk.injEq] at hab
      push_cast at hab
      omega
    have hc4 : (⟨x + 2, -100000⟩ : Position) ∉
        ((Finset.range 200000).image
            (fun k => stepN ⟨x, -100000⟩ .North (k + 1)) ∪
          (Finset.range 200000).image
            (fun k => stepN ⟨x + 1, 100000⟩ .South (k + 1))) := by
      rw [Finset.mem_union, Finset.mem_image, Finset.mem_image]
      rintro (⟨k, _, hk⟩ | ⟨k, _, hk⟩) <;>
        · simp only [stepN, Position.fromDirection, Position.mk.injEq]
            at hk
          push_cast at hk
          omega
    have hc2 : (⟨x + 1, 100000⟩ : Position) ∉
        insert (⟨x + 2, -100000⟩ : Position)
          ((Finset.range 200000).image
              (fun k => stepN ⟨x, -100000⟩ .North (k + 1)) ∪
            (Finset.range 200000).image
              (fun k => stepN ⟨x + 1, 100000⟩ .South (k + 1))) := by
      rw [Finset.mem_insert, Finset.mem_union, Finset.mem_image,
        Finset.mem_image]
      rintro (hk | ⟨k, _, hk⟩ | ⟨k, _, hk⟩)
      · simp only [Position.mk.injEq] at hk
        omega
      all_goals
        simp only [stepN, Position.fromDirection, Position.mk.injEq] at hk
        push_cast at hk
        omega
    have hNS : Disjoint
        ((Finset.range 200000).image
          (fun k => stepN ⟨x, -100000⟩ .North (k + 1)))
        ((Finset.range 200000).image
          (fun k => stepN ⟨x + 1, 100000⟩ .South (k + 1))) := by
      rw [Finset.disjoint_left]
      intro p hp hq
      rw [Finset.mem_image] at hp hq
      obtain ⟨j, _, hj⟩ := hp
      obtain ⟨k, _, hk⟩ := hq
      rw [← hk] at hj
      simp only [stepN, Position.fromDirection, Position.mk.injEq] at hj
      push_cast at hj
      omega
    rw [Finset.card_insert_of_not_mem hc2,
      Finset.card_insert_of_not_mem hc4,
      Finset.card_union_of_disjoint hNS,
      Finset.card_image_of_injective _ hinjN,
      Finset.card_image_of_injective _ hinjS, Finset.card_range]
  · intro p hp
    rw [htrace] at hp
    rw [List.mem_toFinset, List.mem_append, List.mem_cons,
      List.mem_append, List.mem_singleton] at hp
    rcases hp with hp | hp | hp | hp
    · rw [List.mem_map] at hp
      obtain ⟨k, hk, hkeq⟩ := hp
      rw [List.mem_range] at hk
      left
      rw [← hkeq]
      simp only [stepN, Position.fromDirection]
      constructor
      · push_cast
        omega
      · push_cast
        omega
    · right; left
      rw [hp]
    · rw [List.mem_map] at hp
      obtain ⟨k, hk, hkeq⟩ := hp
      right; left
      rw [← hkeq]
      simp only [stepN, Position.fromDirection]
      push_cast
      omega
    · right; right
      exact hp

/-- u repetitions of the snake unit, walking East two columns per unit. -/
def snake : Nat → List Command
  | 0 => []
  | u + 1 => snakeUnit ++ snake u

lemma snake_card :
    ∀ (u : Nat) (x : Int), -100000 ≤ x → x + 2 * u ≤ 100000 →
      (traceWalk ⟨x, -100000⟩ (snake u)).toFinset.card = u * 400002 ∧
      ∀ p ∈ (traceWalk ⟨x, -100000⟩ (snake u)).toFinset,
        x ≤ p.x ∧ (p.x = x → -99999 ≤ p.y)
  | 0, x, _, _ => by
      constructor
      · simp [snake, traceWalk]
      · intro p hp
        simp [snake, traceWalk] at hp
  | u + 1, x, h1, h2 => by
      have hx2 : x + 2 ≤ 100000 := by push_cast at h2; omega
      have hunit := snakeUnit_spec x h1 hx2
      have hrec := snake_card u (x + 2) (by omega)
        (by push_cast at h2 ⊢; omega)
      have hsnake : snake (u + 1) = snakeUnit ++ snake u := rfl
      rw [hsnake, traceWalk_append, hunit.1, List.toFinset_append]
      have hdisj : Disjoint
          (traceWalk ⟨x, -100000⟩ snakeUnit).toFinset
          (traceWalk ⟨x + 2, -100000⟩ (snake u)).toFinset := by
        rw [Finset.disjoint_left]
        intro p hp hq
        have h3 := hunit.2.2 p hp
        have h4 := hrec.2 p hq
        rcases h3 with ⟨hpx, _⟩ | hpx | rfl
        · omega
        · omega
        · have h5 := h4.2 rfl
          rw [show (⟨x + 2, -100000⟩ : Position).y = -100000 from rfl]
            at h5
          omega
      constructor
      · rw [Finset.card_union_of_disjoint hdisj, hunit.2.1, hrec.1]
        ring
      · intro p hp
        rw [Finset.mem_union] at hp
        rcases hp with hp | hp
        · rcases hunit.2.2 p hp with ⟨hpx, hpy⟩ | hpx | rfl
          · exact ⟨by omega, fun _ => hpy⟩
          · exact ⟨by omega, fun hc => by omega⟩
          · constructor
            · show x ≤ x + 2
              omega
            · intro hc
              rw [show (⟨x + 2, -100000⟩ : Position).x = x + 2 from rfl]
                at hc
              omega
        · have h4 := hrec.2 p hp
          exact ⟨by omega, fun hc => by omega⟩

set_option maxHeartbeats 1600000 in
/-- C1 counterexample: a snake of 5369 units (21476 commands) visits
2147610738 distinct in-field cells, which exceeds the i32 range, so the
stored result is the truncated value -2147356558, not the cardinality of
the set of positions occupied after each unit step. -/
theorem calculate_result_wraps_past_int32 :
    (Execution.calculate 0 0 ⟨none, none, 0, 0, none⟩
        ⟨⟨-100000, -100000⟩, snake 5369⟩).result = -2147356558 ∧
    ((traceWalk ⟨-100000, -100000⟩ (snake 5369)).toFinset.card : Int) =
      2147610738 ∧
    (Execution.calculate 0 0 ⟨none, none, 0, 0, none⟩
        ⟨⟨-100000, -100000⟩, snake 5369⟩).result ≠
      ((traceWalk ⟨-100000, -100000⟩ (snake 5369)).toFinset.card :
        Int) := by
  have hs := snake_card 5369 (-100000) (by norm_num)
    (by push_cast)
  have hcard : ((traceWalk ⟨-100000, -100000⟩
      (snake 5369)).toFinset.card : Int) = 2147610738 := by
    rw [hs.1]
    norm_num
  have h := foldl_runCommand_cleaned (snake 5369)
    ⟨⟨-100000, -100000⟩, ∅⟩
  simp only [Finset.empty_union] at h
  have hres : (Execution.calculate 0 0 ⟨none, none, 0, 0, none⟩
      ⟨⟨-100000, -100000⟩, snake 5369⟩).result = -2147356558 := by
    show wrap32 ((List.foldl runCommand ⟨⟨-100000, -100000⟩, ∅⟩
        (snake 5369)).cleaned.card : Int) = -2147356558
    rw [h, hcard]
    norm_num [wrap32]
  exact ⟨hres, hcard, by rw [hres, hcard]; norm_num⟩

/-- C1 amended: for every walk request, the result computed by
Execution.calculate is the cardinality of the set of positions occupied
strictly after each executed unit step (clamped steps insert the
unchanged position), reduced to i32 by the truncating usize-to-i32 cast;
in particular it equals the cardinality itself whenever fewer than 2^31
distinct cells are visited.  The starting cell belongs to the counted
set exactly when some unit step ends on it. -/
theorem calculate_result_counts_positions_after_each_step
    (t0 t1 : Int) (e : Execution) (request : Request) :
    (Execution.calculate t0 t1 e request).result =
      wrap32 ((traceWalk request.start request.commands).toFinset.card :
        Int) ∧
    (((traceWalk request.start request.commands).toFinset.card : Int) <
        2 ^ 31 →
      (Execution.calculate t0 t1 e request).result =
        ((traceWalk request.start request.commands).toFinset.card :
          Int)) ∧
    (request.start ∈ (traceWalk request.start request.commands).toFinset ↔
      request.start ∈ traceWalk request.start request.commands) := by
  have h := foldl_runCommand_cleaned request.commands
    ⟨request.start, ∅⟩
  simp only [Finset.empty_union] at h
  have hw : (Execution.calculate t0 t1 e request).result =
      wrap32 ((traceWalk request.start request.commands).toFinset.card :
        Int) := by
    simp [Execution.calculate, Execution.set_duration, h]
  refine ⟨hw, fun hlt => ?_, List.mem_toFinset⟩
  rw [hw]
  exact wrap32_eq_self
    (le_trans (by norm_num) (Int.natCast_nonneg _)) hlt

set_option maxHeartbeats 1600000 in
/-- C1 witness: the amended statement applied to the walk [East 3] from
the origin, which visits 3 cells, below the truncation point. -/
theorem calculate_result_counts_positions_after_each_step_witness :
    (((traceWalk ⟨0, 0⟩ [⟨Direction.East, 3⟩]).toFinset.card : Int) <
        2 ^ 31) ∧
    (Execution.calculate 0 0 ⟨none, none, 0, 0, none⟩
        ⟨⟨0, 0⟩, [⟨Direction.East, 3⟩]⟩).result =
      ((traceWalk ⟨0, 0⟩ [⟨Direction.East, 3⟩]).toFinset.card : Int) :=
  ⟨by decide,
    (calculate_result_counts_positions_after_each_step 0 0
        ⟨none, none, 0, 0, none⟩ ⟨⟨0, 0⟩, [⟨Direction.East, 3⟩]⟩).2.1
      (by decide)⟩

/-- C5 counterexample: a request with 2^31 commands (constructible as a
16 GiB vector) stores commands = -2^31, the truncated length, not the
number of moves. -/
theorem calculate_commands_wraps_past_int32 :
    (Execution.calculate 0 0 ⟨none, none, 0, 0, none⟩
        ⟨⟨0, 0⟩,
          List.replicate (2 ^ 31) ⟨Direction.East, 0⟩⟩).commands =
      -(2 ^ 31) ∧
    (((List.replicate (2 ^ 31)
        (⟨Direction.East, 0⟩ : Command)).length : Int) = 2 ^ 31) ∧
    (Execution.calculate 0 0 ⟨none, none, 0, 0, none⟩
        ⟨⟨0, 0⟩,
          List.replicate (2 ^ 31) ⟨Direction.East, 0⟩⟩).commands ≠
      ((List.replicate (2 ^ 31)
          (⟨Direction.East, 0⟩ : Command)).length : Int) := by
  have hlen : ((List.replicate (2 ^ 31)
      (⟨Direction.East, 0⟩ : Command)).length : Int) = 2 ^ 31 := by
    rw [List.length_replicate]
    push_cast
  have hcmd : (Execution.calculate 0 0 ⟨none, none, 0, 0, none⟩
      ⟨⟨0, 0⟩,
        List.replicate (2 ^ 31) ⟨Direction.East, 0⟩⟩).commands =
      -(2 ^ 31) := by
    show wrap32 ((List.replicate (2 ^ 31)
        (⟨Direction.East, 0⟩ : Command)).length : Int) = -(2 ^ 31)
    rw [hlen]
    norm_num [wrap32]
  exact ⟨hcmd, hlen, by rw [hcmd, hlen]; norm_num⟩

/-- C5 amended: the commands field set by Execution.calculate is the
number of moves in the request reduced to i32 by the truncating
usize-to-i32 cast; it equals the number of moves itself for every
request with fewer than 2^31 moves, independently of step counts and of
clamping. -/
theorem calculate_commands_eq_length
    (t0 t1 : Int) (e : Execution) (request : Request)
    (h : (request.commands.length : Int) < 2 ^ 31) :
    (Execution.calculate t0 t1 e request).commands =
      (request.commands.length : Int) := by
  show wrap32 (request.commands.length : Int) =
    (request.commands.length : Int)
  exact wrap32_eq_self
    (le_trans (by norm_num) (Int.natCast_nonneg _)) h

/-- C5 witness: the amended statement applied to a two-move request. -/
theorem calculate_commands_eq_length_witness :
    ((([⟨Direction.East, 2⟩, ⟨Direction.West, 1⟩] :
        List Command).length : Int) < 2 ^ 31) ∧
    (Execution.calculate 0 0 ⟨none, none, 0, 0, none⟩
        ⟨⟨0, 0⟩, [⟨Direction.East, 2⟩, ⟨Direction.West, 1⟩]⟩).commands =
      (([⟨Direction.East, 2⟩, ⟨Direction.West, 1⟩] :
          List Command).length : Int) :=
  ⟨by norm_num,
    calculate_commands_eq_length 0 0 ⟨none, none, 0, 0, none⟩
      ⟨⟨0, 0⟩, [⟨Direction.East, 2⟩, ⟨Direction.West, 1⟩]⟩
      (by norm_num)⟩

end RobotVacuum
